import Mathlib

/-!
A cancellable producer, a worker pool and a fan-in merge (`precode.go`)

The Go program starts one `Generator` goroutine, `NumOut` `Worker` goroutines,
`NumOut` collector goroutines, one goroutine that waits on the `WaitGroup` and
closes `chOut`, and reads `chOut` in `main`.  The goroutines are embedded as
small-step machines, the program as their interleaving: an `Action` is one
atomic step of one goroutine (a channel rendezvous is one step of both
parties), `step` is the partial transition function and `exec` runs a
schedule from the initial state.

All `int64` arithmetic goes through `wrap64`.
-/

set_option maxRecDepth 20000

namespace Pipeline

/-! ## Machine integers -/

/-- Two's-complement reduction of an integer to the `int64` range. -/
def wrap64 (x : Int) : Int :=
  (x + 9223372036854775808) % 18446744073709551616 - 9223372036854775808

/-- Membership in the `int64` range. -/
def isInt64 (x : Int) : Prop :=
  -9223372036854775808 ≤ x ∧ x < 9223372036854775808

/-- Pointwise update of a slot-indexed family. -/
def upd {α : Type} (f : Nat → α) (i : Nat) (x : α) : Nat → α :=
  fun j => if j = i then x else f j

/-! ## `Generator` -/

/-- Control points of `Generator`: at the `select`, about to call `fn`
(the send case fired), about to run `value.Add(1)`, returned. -/
inductive GenPc where
  | sel
  | call
  | inc
  | done
  deriving DecidableEq, Repr

/-- Local state of `Generator`: control point and the counter `value`. -/
structure GenSt where
  pc : GenPc
  value : Int
  deriving DecidableEq, Repr

/-- What can happen to `Generator`: the send case of the `select` fires (a
receiver took `value.Load()`), the `ctx.Done()` case fires, `fn` returns,
`value.Add(1)` runs. -/
inductive GenEv where
  | sendOk
  | ctxDone
  | fnReturn
  | tick
  deriving DecidableEq, Repr

/-- One step of `Generator`.  From the `select` either case may fire; the
`ctx.Done()` case returns (the deferred `close(ch)` is performed by the
caller of this step function, which owns the channel state). -/
def Generator (g : GenSt) : GenEv → Option GenSt
  | .sendOk => if g.pc = .sel then some { g with pc := .call } else none
  | .ctxDone => if g.pc = .sel then some { g with pc := .done } else none
  | .fnReturn => if g.pc = .call then some { g with pc := .inc } else none
  | .tick => if g.pc = .inc then some { pc := .sel, value := wrap64 (g.value + 1) } else none

/-! ## `Worker` -/

/-- Control points of `Worker`: blocked in `<-in`, holding `v` before
`out <- v`, in `time.Sleep`, returned. -/
inductive WorkerPc where
  | recv
  | send (v : Int)
  | sleep
  | done
  deriving DecidableEq, Repr

/-- What can happen to `Worker`: `<-in` yields a value, `<-in` reports the
closed channel, `out <- v` completes, the sleep ends. -/
inductive WorkerEv where
  | recvVal (v : Int)
  | recvClosed
  | sent
  | woke
  deriving DecidableEq, Repr

/-- What a goroutine does to its output channel. -/
inductive ChanEv where
  | val (v : Int)
  | close
  deriving DecidableEq, Repr

/-- One step of `Worker`: the new control point and what the step put on
`out`. -/
def Worker : WorkerPc → WorkerEv → Option (WorkerPc × List ChanEv)
  | .recv, .recvVal v => some (.send v, [])
  | .recv, .recvClosed => some (.done, [.close])
  | .send v, .sent => some (.sleep, [.val v])
  | .sleep, .woke => some (.recv, [])
  | _, _ => none

/-- A run of one `Worker` from control point `pc` over a sequence of events:
the final control point and everything put on `out`, or `none` when some
event cannot happen at the point it is scheduled. -/
def Worker.run : WorkerPc → List WorkerEv → Option (WorkerPc × List ChanEv)
  | pc, [] => some (pc, [])
  | pc, e :: es =>
    match Worker pc e with
    | none => none
    | some (pc1, o1) =>
      match Worker.run pc1 es with
      | none => none
      | some (pc2, o2) => some (pc2, o1 ++ o2)

/-- The values delivered to a `Worker` by a sequence of events. -/
def Worker.inputs : List WorkerEv → List Int
  | [] => []
  | .recvVal v :: es => v :: Worker.inputs es
  | _ :: es => Worker.inputs es

/-- The schedule that delivers `xs` to a `Worker` and then end-of-stream. -/
def Worker.feed : List Int → List WorkerEv
  | [] => [.recvClosed]
  | v :: xs => .recvVal v :: .sent :: .woke :: Worker.feed xs

/-- The value a `Worker` has taken and not yet republished. -/
def WorkerPc.held : WorkerPc → List Int
  | .send v => [v]
  | _ => []

/-- The values among the events put on a channel. -/
def ChanEv.vals : List ChanEv → List Int
  | [] => []
  | .val v :: es => v :: ChanEv.vals es
  | .close :: es => ChanEv.vals es

/-! ## `main` -/

/-- Control points of a collector goroutine of `main`: blocked in `<-in`,
holding `num` before `amounts[i]++`, holding `num` before `chOut <- num`,
returned (`wg.Done()` has run). -/
inductive CollPc where
  | recv
  | inc (num : Int)
  | send (num : Int)
  | done
  deriving DecidableEq, Repr

/-- Control points of the `for val := range chOut` loop of `main`. -/
inductive MainPc where
  | ranging
  | drained
  deriving DecidableEq, Repr

/-- The value a collector has read and not yet forwarded. -/
def CollPc.held : CollPc → List Int
  | .inc v => [v]
  | .send v => [v]
  | _ => []

/-- State of the program once `main` has started all goroutines.  The
fields up to `sum` are the program's variables; `published`, `observed`,
`taken`, `merged` and the slot number stored next to each value of `chOut`
are history: they record what happened and no guard or computed value
reads them. -/
structure State where
  /-- The deadline of `ctx` has passed: `ctx.Done()` is ready. -/
  ctxDone : Bool
  gen : GenSt
  /-- Inside the observer `fn`, between `inputSum.Add(i)` and `inputCount.Add(1)`. -/
  fnMid : Bool
  chInClosed : Bool
  inputSum : Int
  inputCount : Int
  workers : Nat → WorkerPc
  outClosed : Nat → Bool
  collectors : Nat → CollPc
  amounts : Nat → Int
  /-- Counter of the `WaitGroup`. -/
  wg : Int
  /-- Buffer of `chOut`, oldest first; capacity `NumOut`. -/
  chOut : List (Nat × Int)
  chOutClosed : Bool
  mainPc : MainPc
  count : Int
  sum : Int
  /-- Values sent on `chIn`, in order. -/
  published : List Int
  /-- Arguments of the calls of `fn`, in order. -/
  observed : List Int
  /-- Values worker `i` received from `chIn`, in order. -/
  taken : Nat → List Int
  /-- Values `main` received from `chOut`, in order, each with the slot of
  the collector that sent it. -/
  merged : List (Nat × Int)

/-- The state after `main` has created the channels and started the
goroutines of a pool of `N` workers (`NumOut` in the source): `wg.Add(1)`
has run `N` times. -/
def init (N : Nat) : State where
  ctxDone := false
  gen := { pc := .sel, value := 0 }
  fnMid := false
  chInClosed := false
  inputSum := 0
  inputCount := 0
  workers := fun _ => .recv
  outClosed := fun _ => false
  collectors := fun _ => .recv
  amounts := fun _ => 0
  wg := N
  chOut := []
  chOutClosed := false
  mainPc := .ranging
  count := 0
  sum := 0
  published := []
  observed := []
  taken := fun _ => []
  merged := []

/-- Atomic steps of the program. -/
inductive Action where
  /-- The deadline of `ctx` passes. -/
  | timeout
  /-- `case ch <- value.Load()` fires with worker `w` receiving. -/
  | genSend (w : Nat)
  /-- In `fn`: `inputSum.Add(i)`. -/
  | obsSum
  /-- In `fn`: `inputCount.Add(1)`, then `fn` returns. -/
  | obsCount
  /-- In `Generator`: `value.Add(1)`. -/
  | genInc
  /-- `case <-ctx.Done()` fires: `Generator` returns and closes `chIn`. -/
  | genReturn
  /-- Worker `w` finds `chIn` closed, closes `outs[w]` and returns. -/
  | workerClose (w : Nat)
  /-- `out <- v` of worker `w` meets `<-in` of collector `w`. -/
  | workerSend (w : Nat)
  /-- The sleep of worker `w` ends. -/
  | workerWake (w : Nat)
  /-- Collector `i` finds `outs[i]` closed, leaves its loop, `wg.Done()`. -/
  | collClosed (i : Nat)
  /-- Collector `i`: `amounts[i]++`. -/
  | collInc (i : Nat)
  /-- Collector `i`: `chOut <- num`, the buffer has room. -/
  | collSend (i : Nat)
  /-- `wg.Wait()` returns and `close(chOut)` runs. -/
  | sentinelClose
  /-- `main` receives a value from `chOut`: `count++`, `sum += val`. -/
  | mainRecv
  /-- The `range` loop of `main` ends: `chOut` is closed and empty. -/
  | mainEnd
  deriving DecidableEq, Repr

/-- The transition function of the program with a pool of `N` workers;
`none` when the goroutine is not at that step or is blocked. -/
def step (N : Nat) (s : State) : Action → Option State
  | .timeout => some { s with ctxDone := true }
  | .genSend w =>
    if w < N then
      match Generator s.gen .sendOk, Worker (s.workers w) (.recvVal s.gen.value) with
      | some g, some (pc, _) =>
        some { s with
          gen := g
          workers := upd s.workers w pc
          published := s.published ++ [s.gen.value]
          taken := upd s.taken w (s.taken w ++ [s.gen.value]) }
      | _, _ => none
    else none
  | .obsSum =>
    if s.gen.pc = .call ∧ s.fnMid = false then
      some { s with
        inputSum := wrap64 (s.inputSum + s.gen.value)
        fnMid := true
        observed := s.observed ++ [s.gen.value] }
    else none
  | .obsCount =>
    if s.fnMid = true then
      match Generator s.gen .fnReturn with
      | some g =>
        some { s with inputCount := wrap64 (s.inputCount + 1), fnMid := false, gen := g }
      | none => none
    else none
  | .genInc =>
    match Generator s.gen .tick with
    | some g => some { s with gen := g }
    | none => none
  | .genReturn =>
    if s.ctxDone = true then
      match Generator s.gen .ctxDone with
      | some g => some { s with gen := g, chInClosed := true }
      | none => none
    else none
  | .workerClose w =>
    if w < N ∧ s.chInClosed = true then
      match Worker (s.workers w) .recvClosed with
      | some (pc, _) =>
        some { s with workers := upd s.workers w pc, outClosed := upd s.outClosed w true }
      | none => none
    else none
  | .workerSend w =>
    if w < N ∧ s.collectors w = .recv then
      match Worker (s.workers w) .sent with
      | some (pc, [.val v]) =>
        some { s with
          workers := upd s.workers w pc
          collectors := upd s.collectors w (.inc v) }
      | _ => none
    else none
  | .workerWake w =>
    if w < N then
      match Worker (s.workers w) .woke with
      | some (pc, _) => some { s with workers := upd s.workers w pc }
      | none => none
    else none
  | .collClosed i =>
    if i < N ∧ s.collectors i = .recv ∧ s.outClosed i = true then
      some { s with collectors := upd s.collectors i .done, wg := s.wg - 1 }
    else none
  | .collInc i =>
    if i < N then
      match s.collectors i with
      | .inc num =>
        some { s with
          amounts := upd s.amounts i (wrap64 (s.amounts i + 1))
          collectors := upd s.collectors i (.send num) }
      | _ => none
    else none
  | .collSend i =>
    if i < N ∧ s.chOut.length < N ∧ s.chOutClosed = false then
      match s.collectors i with
      | .send num =>
        some { s with
          chOut := s.chOut ++ [(i, num)]
          collectors := upd s.collectors i .recv }
      | _ => none
    else none
  | .sentinelClose =>
    if s.wg = 0 ∧ s.chOutClosed = false then some { s with chOutClosed := true } else none
  | .mainRecv =>
    if s.mainPc = .ranging then
      match s.chOut with
      | (i, val) :: rest =>
        some { s with
          chOut := rest
          count := wrap64 (s.count + 1)
          sum := wrap64 (s.sum + val)
          merged := s.merged ++ [(i, val)] }
      | [] => none
    else none
  | .mainEnd =>
    if s.mainPc = .ranging ∧ s.chOut = [] ∧ s.chOutClosed = true then
      some { s with mainPc := .drained }
    else none

/-- A scheduled step that cannot happen leaves the state as it is. -/
def next (N : Nat) (s : State) (a : Action) : State :=
  (step N s a).getD s

/-- The state reached from `init N` by a schedule. -/
def exec (N : Nat) (acts : List Action) : State :=
  acts.foldl (next N) (init N)

/-- Result of the checks at the end of `main`. -/
inductive Outcome where
  | ok
  | fatalSum
  | fatalCount
  | fatalSplit
  deriving DecidableEq, Repr

/-- The loop `for _, v := range amounts { inputCount.Add(v * (-1)) }`. -/
def subtractAll (inputCount : Int) (amounts : List Int) : Int :=
  amounts.foldl (fun ic v => wrap64 (ic + wrap64 (v * (-1)))) inputCount

/-- The checks at the end of `main` (lines 123-134). -/
def verify (inputCount inputSum count sum : Int) (amounts : List Int) : Outcome :=
  if inputSum ≠ sum then .fatalSum
  else if inputCount ≠ count then .fatalCount
  else if subtractAll inputCount amounts ≠ 0 then .fatalSplit
  else .ok

/-- The slice `amounts` of a state. -/
def amountsList (N : Nat) (s : State) : List Int :=
  (List.range N).map s.amounts

/-- The checks of `main` on a state. -/
def outcome (N : Nat) (s : State) : Outcome :=
  verify s.inputCount s.inputSum s.count s.sum (amountsList N s)

/-- Values with slot `i` in a tagged sequence. -/
def viaSlot (i : Nat) (l : List (Nat × Int)) : List Int :=
  (l.filter (fun p => p.1 = i)).map Prod.snd

/-- The run is over: `Generator` has returned, `chIn`, every `outs[i]` and
`chOut` are closed, and `chOut` is empty. -/
def complete (N : Nat) (s : State) : Prop :=
  s.gen.pc = .done ∧ s.chInClosed = true ∧ (∀ i, i < N → s.outClosed i = true) ∧
    s.chOutClosed = true ∧ s.chOut = []

/-- A schedule of a pool of two in which worker 0 relays one value and
worker 1 none. -/
def demo : List Action :=
  [.genSend 0, .obsSum, .obsCount, .genInc, .workerSend 0, .collInc 0, .collSend 0,
   .mainRecv, .workerWake 0, .timeout, .genReturn, .workerClose 0, .workerClose 1,
   .collClosed 0, .collClosed 1, .sentinelClose, .mainEnd]

/-- A complete schedule of a pool of two in which three values are emitted:
worker 0 relays the first and the third, worker 1 the second, and the second
reaches `chOut` last. -/
def demo3 : List Action :=
  [.genSend 0, .obsSum, .obsCount, .genInc, .genSend 1, .obsSum, .obsCount, .genInc,
   .workerSend 0, .workerWake 0, .genSend 0, .obsSum, .obsCount, .genInc,
   .collInc 0, .collSend 0, .mainRecv, .workerSend 0, .collInc 0, .collSend 0,
   .workerSend 1, .collInc 1, .collSend 1, .mainRecv, .mainRecv, .workerWake 0,
   .workerWake 1, .timeout, .genReturn, .workerClose 0, .workerClose 1,
   .collClosed 0, .collClosed 1, .sentinelClose, .mainEnd]

/-- The states the program can be in: the initial state and every state a
step leads to from such a state. -/
inductive Reachable (N : Nat) : State → Prop where
  | init : Reachable N (init N)
  | step {s s' : State} {a : Action} : Reachable N s → step N s a = some s' → Reachable N s'

instance (N : Nat) (s : State) : Decidable (complete N s) := by
  unfold complete; infer_instance

/-! ## The invariant -/

/-- Emissions begun and not yet finished by `value.Add(1)`. -/
def GenPc.pend : GenPc → Int
  | .call => 1
  | .inc => 1
  | _ => 0

/-- Whether the tally of the held value has already been incremented. -/
def CollPc.counted : CollPc → Nat
  | .send _ => 1
  | _ => 0

/-- Contribution of a collector to the `WaitGroup` counter. -/
def CollPc.live : CollPc → Int
  | .done => 0
  | _ => 1

/-- The invariant of the program. -/
structure Inv (N : Nat) (s : State) : Prop where
  fn_mid : s.fnMid = true → s.gen.pc = .call
  chIn_closed : s.chInClosed = true ↔ s.gen.pc = .done
  out_closed : ∀ i, s.outClosed i = true ↔ s.workers i = .done
  worker_done : ∀ i, s.workers i = .done → s.chInClosed = true
  coll_done : ∀ i, s.collectors i = .done → s.outClosed i = true
  wg_eq : s.wg = ∑ i in Finset.range N, (s.collectors i).live
  chOut_closed : s.chOutClosed = true → ∀ i, i < N → s.collectors i = .done
  drained : s.mainPc = .drained → s.chOutClosed = true ∧ s.chOut = []
  value_eq : s.gen.value = wrap64 ((s.published.length : Int) - s.gen.pc.pend)
  last_eq : s.gen.pc.pend = 1 → s.published.getLast? = some s.gen.value
  pub_eq : s.published = (List.range s.published.length).map (fun k : Nat => wrap64 (k : Int))
  obs_eq : s.observed ++ (if s.gen.pc = .call ∧ s.fnMid = false then [s.gen.value] else [])
    = s.published
  sum_eq : s.inputSum = wrap64 s.observed.sum
  count_eq : s.inputCount
    = wrap64 ((s.observed.length : Int) - (if s.fnMid = true then 1 else 0))
  flow : ∀ i, viaSlot i (s.merged ++ s.chOut) ++ (s.collectors i).held ++ (s.workers i).held
    = s.taken i
  bag : (↑s.published : Multiset Int) = ∑ i in Finset.range N, (↑(s.taken i) : Multiset Int)
  tags : ∀ p ∈ s.merged ++ s.chOut, p.1 < N
  sub : ∀ i, (s.taken i).Sublist s.published
  tally : ∀ i, s.amounts i
    = wrap64 (((viaSlot i (s.merged ++ s.chOut)).length + (s.collectors i).counted : Nat) : Int)
  cnt : s.count = wrap64 (s.merged.length : Int)
  sm : s.sum = wrap64 (s.merged.map Prod.snd).sum

/-! ## The steps of the program, case by case -/

/-- Case analysis on a step: what each action requires and what it changes. -/
theorem step_elim {N : Nat} {s s' : State} {a : Action} (h : step N s a = some s')
    (P : Action → State → Prop)
    (timeout : P .timeout { s with ctxDone := true })
    (genSend : ∀ w, w < N → s.gen.pc = .sel → s.workers w = .recv →
      P (.genSend w) { s with
        gen := { s.gen with pc := .call }
        workers := upd s.workers w (.send s.gen.value)
        published := s.published ++ [s.gen.value]
        taken := upd s.taken w (s.taken w ++ [s.gen.value]) })
    (obsSum : s.gen.pc = .call → s.fnMid = false →
      P .obsSum { s with
        inputSum := wrap64 (s.inputSum + s.gen.value)
        fnMid := true
        observed := s.observed ++ [s.gen.value] })
    (obsCount : s.gen.pc = .call → s.fnMid = true →
      P .obsCount { s with
        inputCount := wrap64 (s.inputCount + 1)
        fnMid := false
        gen := { s.gen with pc := .inc } })
    (genInc : s.gen.pc = .inc →
      P .genInc { s with gen := { pc := .sel, value := wrap64 (s.gen.value + 1) } })
    (genReturn : s.ctxDone = true → s.gen.pc = .sel →
      P .genReturn { s with gen := { s.gen with pc := .done }, chInClosed := true })
    (workerClose : ∀ w, w < N → s.chInClosed = true → s.workers w = .recv →
      P (.workerClose w) { s with
        workers := upd s.workers w .done, outClosed := upd s.outClosed w true })
    (workerSend : ∀ w v, w < N → s.collectors w = .recv → s.workers w = .send v →
      P (.workerSend w) { s with
        workers := upd s.workers w .sleep
        collectors := upd s.collectors w (.inc v) })
    (workerWake : ∀ w, w < N → s.workers w = .sleep →
      P (.workerWake w) { s with workers := upd s.workers w .recv })
    (collClosed : ∀ i, i < N → s.collectors i = .recv → s.outClosed i = true →
      P (.collClosed i) { s with collectors := upd s.collectors i .done, wg := s.wg - 1 })
    (collInc : ∀ i num, i < N → s.collectors i = .inc num →
      P (.collInc i) { s with
        amounts := upd s.amounts i (wrap64 (s.amounts i + 1))
        collectors := upd s.collectors i (.send num) })
    (collSend : ∀ i num, i < N → s.chOut.length < N → s.chOutClosed = false →
      s.collectors i = .send num →
      P (.collSend i) { s with
        chOut := s.chOut ++ [(i, num)]
        collectors := upd s.collectors i .recv })
    (sentinelClose : s.wg = 0 → s.chOutClosed = false →
      P .sentinelClose { s with chOutClosed := true })
    (mainRecv : ∀ i val rest, s.mainPc = .ranging → s.chOut = (i, val) :: rest →
      P .mainRecv { s with
        chOut := rest
        count := wrap64 (s.count + 1)
        sum := wrap64 (s.sum + val)
        merged := s.merged ++ [(i, val)] })
    (mainEnd : s.mainPc = .ranging → s.chOut = [] → s.chOutClosed = true →
      P .mainEnd { s with mainPc := .drained }) :
    P a s' := by
  cases a with
  | timeout =>
    simp only [step, Option.some.injEq] at h
    subst h; exact timeout
  | genSend w =>
    simp only [step] at h
    split_ifs at h with hw
    cases hpc : s.workers w <;> cases hg : s.gen.pc <;>
      simp [Generator, Worker, hpc, hg] at h
    subst h
    exact genSend w hw hg hpc
  | obsSum =>
    simp only [step] at h
    split_ifs at h with hc
    simp only [Option.some.injEq] at h
    subst h; exact obsSum hc.1 hc.2
  | obsCount =>
    simp only [step] at h
    split_ifs at h with hc
    cases hg : s.gen.pc <;> simp [Generator, hg] at h
    subst h; exact obsCount hg hc
  | genInc =>
    simp only [step] at h
    cases hg : s.gen.pc <;> simp [Generator, hg] at h
    subst h; exact genInc hg
  | genReturn =>
    simp only [step] at h
    split_ifs at h with hc
    cases hg : s.gen.pc <;> simp [Generator, hg] at h
    subst h; exact genReturn hc hg
  | workerClose w =>
    simp only [step] at h
    split_ifs at h with hc
    cases hpc : s.workers w <;> simp [Worker, hpc] at h
    subst h; exact workerClose w hc.1 hc.2 hpc
  | workerSend w =>
    simp only [step] at h
    split_ifs at h with hc
    cases hpc : s.workers w <;> simp [Worker, hpc] at h
    subst h; exact workerSend w _ hc.1 hc.2 hpc
  | workerWake w =>
    simp only [step] at h
    split_ifs at h with hc
    cases hpc : s.workers w <;> simp [Worker, hpc] at h
    subst h; exact workerWake w hc hpc
  | collClosed i =>
    simp only [step] at h
    split_ifs at h with hc
    simp only [Option.some.injEq] at h
    subst h; exact collClosed i hc.1 hc.2.1 hc.2.2
  | collInc i =>
    simp only [step] at h
    split_ifs at h with hc
    cases hpc : s.collectors i <;> simp [hpc] at h
    subst h; exact collInc i _ hc hpc
  | collSend i =>
    simp only [step] at h
    split_ifs at h with hc
    cases hpc : s.collectors i <;> simp [hpc] at h
    subst h; exact collSend i _ hc.1 hc.2.1 hc.2.2 hpc
  | sentinelClose =>
    simp only [step] at h
    split_ifs at h with hc
    simp only [Option.some.injEq] at h
    subst h; exact sentinelClose hc.1 hc.2
  | mainRecv =>
    simp only [step] at h
    split_ifs at h with hc
    cases hb : s.chOut with
    | nil => simp [hb] at h
    | cons p rest =>
      obtain ⟨i, val⟩ := p
      simp [hb] at h
      subst h; exact mainRecv i val rest hc hb
  | mainEnd =>
    simp only [step] at h
    split_ifs at h with hc
    simp only [Option.some.injEq] at h
    subst h; exact mainEnd hc.1 hc.2.1 hc.2.2

/-! ## Arithmetic of `wrap64` -/

theorem wrap64_of_isInt64 {x : Int} (h : isInt64 x) : wrap64 x = x := by
  unfold isInt64 at h; unfold wrap64; omega

theorem wrap64_isInt64 (x : Int) : isInt64 (wrap64 x) := by
  unfold isInt64 wrap64; omega

theorem wrap64_add_left (a b : Int) : wrap64 (wrap64 a + b) = wrap64 (a + b) := by
  unfold wrap64; omega

theorem wrap64_add_right (a b : Int) : wrap64 (a + wrap64 b) = wrap64 (a + b) := by
  unfold wrap64; omega

theorem wrap64_sub_left (a b : Int) : wrap64 (wrap64 a - b) = wrap64 (a - b) := by
  unfold wrap64; omega

theorem wrap64_eq_iff (a b : Int) :
    wrap64 a = wrap64 b ↔ (18446744073709551616 : Int) ∣ a - b := by
  unfold wrap64; omega

/-! ## Slot-indexed families -/

@[simp] theorem upd_same {α : Type} (f : Nat → α) (i : Nat) (x : α) : upd f i x i = x := by
  simp [upd]

@[simp] theorem upd_other {α : Type} (f : Nat → α) {i j : Nat} (x : α) (h : j ≠ i) :
    upd f i x j = f j := by
  simp [upd, h]

theorem upd_apply {α : Type} (f : Nat → α) (i j : Nat) (x : α) :
    upd f i x j = if j = i then x else f j := rfl

theorem sum_upd {M : Type} [AddCommMonoid M] {N i : Nat} (hi : i < N) (F : Nat → M) (y : M) :
    (∑ j in Finset.range N, upd F i y j) + F i = (∑ j in Finset.range N, F j) + y := by
  have hmem : i ∈ Finset.range N := Finset.mem_range.mpr hi
  have hupd : upd F i y = Function.update F i y := by
    funext j; simp [upd, Function.update]
  rw [hupd, Finset.sum_update_of_mem hmem, ← Finset.add_sum_erase _ F hmem,
    Finset.sdiff_singleton_eq_erase]
  abel

theorem inv_init (N : Nat) : Inv N (init N) := by
  constructor <;> simp [init, GenPc.pend, viaSlot, CollPc.held, WorkerPc.held, CollPc.counted,
    CollPc.live, wrap64]

theorem inv_fn_mid {N : Nat} {s s' : State} {a : Action} (hI : Inv N s)
    (h : step N s a = some s') : s'.fnMid = true → s'.gen.pc = .call := by
  have h1 := hI.fn_mid
  apply step_elim h (fun _ t => t.fnMid = true → t.gen.pc = .call) <;> intros <;> simp_all

theorem inv_chIn_closed {N : Nat} {s s' : State} {a : Action} (hI : Inv N s)
    (h : step N s a = some s') : s'.chInClosed = true ↔ s'.gen.pc = .done := by
  have h1 := hI.chIn_closed
  apply step_elim h (fun _ t => t.chInClosed = true ↔ t.gen.pc = .done) <;> intros <;> simp_all

theorem inv_out_closed {N : Nat} {s s' : State} {a : Action} (hI : Inv N s)
    (h : step N s a = some s') : ∀ i, s'.outClosed i = true ↔ s'.workers i = .done := by
  have h1 := hI.out_closed
  apply step_elim h (fun _ t => ∀ i, t.outClosed i = true ↔ t.workers i = .done) <;> intros
  all_goals first
    | exact h1 _
    | (simp only [upd_apply]; split_ifs <;> simp_all)

theorem inv_worker_done {N : Nat} {s s' : State} {a : Action} (hI : Inv N s)
    (h : step N s a = some s') : ∀ i, s'.workers i = .done → s'.chInClosed = true := by
  have h1 := hI.worker_done
  apply step_elim h (fun _ t => ∀ i, t.workers i = .done → t.chInClosed = true)
  case genSend =>
    intro w _ _ _ i hd
    by_cases hiw : i = w
    · subst hiw; simp at hd
    · exact h1 i (by simpa [hiw] using hd)
  case genReturn => intros; rfl
  case workerClose => intro w _ hc _ i _; exact hc
  case workerSend =>
    intro w v _ _ _ i hd
    by_cases hiw : i = w
    · subst hiw; simp at hd
    · exact h1 i (by simpa [hiw] using hd)
  case workerWake =>
    intro w _ _ i hd
    by_cases hiw : i = w
    · subst hiw; simp at hd
    · exact h1 i (by simpa [hiw] using hd)
  all_goals (intros; exact h1 _ ‹_›)

theorem inv_coll_done {N : Nat} {s s' : State} {a : Action} (hI : Inv N s)
    (h : step N s a = some s') : ∀ i, s'.collectors i = .done → s'.outClosed i = true := by
  have h1 := hI.coll_done
  apply step_elim h (fun _ t => ∀ i, t.collectors i = .done → t.outClosed i = true)
  case workerClose =>
    intro w _ _ _ i hd
    by_cases hiw : i = w
    · subst hiw; simp
    · simpa [hiw] using h1 i hd
  case workerSend =>
    intro w v _ _ _ i hd
    by_cases hiw : i = w
    · subst hiw; simp at hd
    · exact h1 i (by simpa [hiw] using hd)
  case collClosed =>
    intro w _ _ ho i hd
    by_cases hiw : i = w
    · subst hiw; exact ho
    · exact h1 i (by simpa [hiw] using hd)
  case collInc =>
    intro w v _ _ i hd
    by_cases hiw : i = w
    · subst hiw; simp at hd
    · exact h1 i (by simpa [hiw] using hd)
  case collSend =>
    intro w v _ _ _ _ i hd
    by_cases hiw : i = w
    · subst hiw; simp at hd
    · exact h1 i (by simpa [hiw] using hd)
  all_goals (intros; exact h1 _ ‹_›)

theorem inv_wg_eq {N : Nat} {s s' : State} {a : Action} (hI : Inv N s)
    (h : step N s a = some s') : s'.wg = ∑ i in Finset.range N, (s'.collectors i).live := by
  have h1 := hI.wg_eq
  have key : ∀ (i : Nat) (c : CollPc), i < N →
      (∑ j in Finset.range N, (upd s.collectors i c j).live) + (s.collectors i).live
        = s.wg + c.live := by
    intro i c hi
    have := sum_upd hi (fun j => (s.collectors j).live) c.live
    rw [h1, ← this]
    congr 1
    apply Finset.sum_congr rfl
    intro j _
    simp only [upd_apply]; split_ifs <;> rfl
  apply step_elim h (fun _ t => t.wg = ∑ i in Finset.range N, (t.collectors i).live)
  case workerSend =>
    intro w v hw hc _
    have := key w (.inc v) hw
    rw [hc] at this
    have e1 : CollPc.recv.live = 1 := rfl
    have e2 : (CollPc.inc v).live = 1 := rfl
    rw [e1, e2] at this
    show s.wg = _
    linarith
  case collClosed =>
    intro w hw hc _
    have := key w .done hw
    rw [hc] at this
    have e1 : CollPc.recv.live = 1 := rfl
    have e2 : CollPc.done.live = 0 := rfl
    rw [e1, e2] at this
    show s.wg - 1 = _
    linarith
  case collInc =>
    intro w v hw hc
    have := key w (.send v) hw
    rw [hc] at this
    have e1 : (CollPc.send v).live = 1 := rfl
    have e2 : (CollPc.inc v).live = 1 := rfl
    rw [e1, e2] at this
    show s.wg = _
    linarith
  case collSend =>
    intro w v hw _ _ hc
    have := key w .recv hw
    rw [hc] at this
    have e1 : (CollPc.send v).live = 1 := rfl
    have e2 : CollPc.recv.live = 1 := rfl
    rw [e1, e2] at this
    show s.wg = _
    linarith
  all_goals (intros; exact h1)

theorem live_nonneg (c : CollPc) : 0 ≤ c.live := by
  cases c <;> simp [CollPc.live]

theorem live_eq_zero {c : CollPc} (h : c.live = 0) : c = .done := by
  cases c <;> simp [CollPc.live] at h ⊢

theorem inv_chOut_closed {N : Nat} {s s' : State} {a : Action} (hI : Inv N s)
    (h : step N s a = some s') :
    s'.chOutClosed = true → ∀ i, i < N → s'.collectors i = .done := by
  have h1 := hI.chOut_closed
  have h2 := hI.wg_eq
  apply step_elim h (fun _ t => t.chOutClosed = true → ∀ i, i < N → t.collectors i = .done)
  case sentinelClose =>
    intro hwg _ _ i hi
    show s.collectors i = .done
    rw [hwg] at h2
    have := (Finset.sum_eq_zero_iff_of_nonneg (fun j _ => live_nonneg (s.collectors j))).mp
      h2.symm i (Finset.mem_range.mpr hi)
    exact live_eq_zero this
  case workerSend =>
    intro w v hw hc _ hcl i hi
    have := h1 hcl w hw
    rw [hc] at this; cases this
  case collClosed =>
    intro w hw hc _ hcl i hi
    have := h1 hcl w hw
    rw [hc] at this; cases this
  case collInc =>
    intro w v hw hc hcl i hi
    have := h1 hcl w hw
    rw [hc] at this; cases this
  case collSend =>
    intro w v hw _ hcl' hc hcl i hi
    have : s.chOutClosed = true := hcl
    rw [hcl'] at this; cases this
  all_goals (intros; exact h1 ‹_› _ ‹_›)

theorem inv_drained {N : Nat} {s s' : State} {a : Action} (hI : Inv N s)
    (h : step N s a = some s') :
    s'.mainPc = .drained → s'.chOutClosed = true ∧ s'.chOut = [] := by
  have h1 := hI.drained
  apply step_elim h (fun _ t => t.mainPc = .drained → t.chOutClosed = true ∧ t.chOut = [])
  case collSend =>
    intro w v _ _ hcl _ hd
    have := (h1 hd).1
    rw [hcl] at this; cases this
  case sentinelClose => intro _ _ hd; exact ⟨rfl, (h1 hd).2⟩
  case mainRecv =>
    intro i v rest hm _ hd
    have : s.mainPc = .drained := hd
    rw [hm] at this; cases this
  case mainEnd => intro _ he hc _; exact ⟨hc, he⟩
  all_goals (intros; exact h1 ‹_›)

theorem inv_value_eq {N : Nat} {s s' : State} {a : Action} (hI : Inv N s)
    (h : step N s a = some s') :
    s'.gen.value = wrap64 ((s'.published.length : Int) - s'.gen.pc.pend) := by
  have h1 := hI.value_eq
  apply step_elim h (fun _ t => t.gen.value = wrap64 ((t.published.length : Int) - t.gen.pc.pend))
  case genSend =>
    intro w _ hg _
    rw [hg] at h1
    simpa [GenPc.pend] using h1
  case obsCount =>
    intro hg _
    rw [hg] at h1
    simpa [GenPc.pend] using h1
  case genInc =>
    intro hg
    rw [hg] at h1
    show wrap64 (s.gen.value + 1) = _
    rw [h1, wrap64_add_left]
    simp [GenPc.pend]
  case genReturn =>
    intro _ hg
    rw [hg] at h1
    simpa [GenPc.pend] using h1
  all_goals (intros; exact h1)

theorem inv_last_eq {N : Nat} {s s' : State} {a : Action} (hI : Inv N s)
    (h : step N s a = some s') :
    s'.gen.pc.pend = 1 → s'.published.getLast? = some s'.gen.value := by
  have h1 := hI.last_eq
  apply step_elim h (fun _ t => t.gen.pc.pend = 1 → t.published.getLast? = some t.gen.value)
  case genSend => intro w _ hg _ _; simp
  case obsCount =>
    intro hg _ _
    rw [hg] at h1
    exact h1 rfl
  case genInc => intro hg hp; simp [GenPc.pend] at hp
  case genReturn => intro _ hg hp; simp [GenPc.pend] at hp
  all_goals (intros; exact h1 ‹_›)

theorem inv_pub_eq {N : Nat} {s s' : State} {a : Action} (hI : Inv N s)
    (h : step N s a = some s') :
    s'.published = (List.range s'.published.length).map (fun k : Nat => wrap64 (k : Int)) := by
  have h1 := hI.pub_eq
  have h2 := hI.value_eq
  apply step_elim h
    (fun _ t => t.published = (List.range t.published.length).map (fun k : Nat => wrap64 (k : Int)))
  case genSend =>
    intro w _ hg _
    rw [hg] at h2
    simp only [List.length_append, List.length_singleton, List.range_succ, List.map_append,
      List.map_singleton]
    rw [← h1, h2]
    simp [GenPc.pend]
  all_goals (intros; exact h1)

theorem inv_obs_eq {N : Nat} {s s' : State} {a : Action} (hI : Inv N s)
    (h : step N s a = some s') :
    s'.observed ++ (if s'.gen.pc = .call ∧ s'.fnMid = false then [s'.gen.value] else [])
      = s'.published := by
  have h1 := hI.obs_eq
  have h2 := hI.fn_mid
  apply step_elim h (fun _ t =>
    t.observed ++ (if t.gen.pc = .call ∧ t.fnMid = false then [t.gen.value] else [])
      = t.published)
  case genSend =>
    intro w _ hg _
    have hf : s.fnMid = false := by
      cases hfm : s.fnMid
      · rfl
      · have := h2 hfm; rw [hg] at this; cases this
    simp [hg] at h1
    simp [hf, h1]
  case obsSum =>
    intro hg hf
    simp [hg, hf] at h1
    simp [h1]
  case obsCount =>
    intro hg hf
    simp [hg, hf] at h1
    simp [h1]
  case genInc =>
    intro hg
    simp [hg] at h1
    simp [h1]
  case genReturn =>
    intro _ hg
    simp [hg] at h1
    simp [h1]
  all_goals (intros; exact h1)

theorem inv_sum_eq {N : Nat} {s s' : State} {a : Action} (hI : Inv N s)
    (h : step N s a = some s') : s'.inputSum = wrap64 s'.observed.sum := by
  have h1 := hI.sum_eq
  apply step_elim h (fun _ t => t.inputSum = wrap64 t.observed.sum)
  case obsSum =>
    intro _ _
    show wrap64 (s.inputSum + s.gen.value) = wrap64 (s.observed ++ [s.gen.value]).sum
    rw [h1, wrap64_add_left]
    simp
  all_goals (intros; exact h1)

theorem inv_count_eq {N : Nat} {s s' : State} {a : Action} (hI : Inv N s)
    (h : step N s a = some s') :
    s'.inputCount
      = wrap64 ((s'.observed.length : Int) - (if s'.fnMid = true then 1 else 0)) := by
  have h1 := hI.count_eq
  apply step_elim h (fun _ t =>
    t.inputCount = wrap64 ((t.observed.length : Int) - (if t.fnMid = true then 1 else 0)))
  case obsSum =>
    intro _ hf
    simp [hf] at h1
    simp [h1]
  case obsCount =>
    intro _ hf
    simp [hf] at h1
    show wrap64 (s.inputCount + 1) = _
    rw [h1, wrap64_add_left]
    simp
  all_goals (intros; exact h1)

theorem viaSlot_append (i : Nat) (l₁ l₂ : List (Nat × Int)) :
    viaSlot i (l₁ ++ l₂) = viaSlot i l₁ ++ viaSlot i l₂ := by
  simp [viaSlot]

theorem viaSlot_single (i j : Nat) (v : Int) :
    viaSlot i [(j, v)] = if j = i then [v] else [] := by
  by_cases h : j = i <;> simp [viaSlot, h]

theorem viaSlot_cons (i j : Nat) (v : Int) (l : List (Nat × Int)) :
    viaSlot i ((j, v) :: l) = (if j = i then [v] else []) ++ viaSlot i l := by
  by_cases h : j = i <;> simp [viaSlot, h]

theorem inv_flow {N : Nat} {s s' : State} {a : Action} (hI : Inv N s)
    (h : step N s a = some s') :
    ∀ i, viaSlot i (s'.merged ++ s'.chOut) ++ (s'.collectors i).held ++ (s'.workers i).held
      = s'.taken i := by
  have h1 := hI.flow
  apply step_elim h (fun _ t =>
    ∀ i, viaSlot i (t.merged ++ t.chOut) ++ (t.collectors i).held ++ (t.workers i).held
      = t.taken i)
  case genSend =>
    intro w _ _ hpc i
    have := h1 i
    by_cases hiw : i = w
    · subst hiw
      rw [hpc] at this
      simp [WorkerPc.held] at this ⊢
      rw [← this, List.append_assoc]
    · simpa [hiw] using this
  case workerClose =>
    intro w _ _ hpc i
    have := h1 i
    by_cases hiw : i = w
    · subst hiw
      rw [hpc] at this
      simpa [WorkerPc.held] using this
    · simpa [hiw] using this
  case workerSend =>
    intro w v _ hc hpc i
    have := h1 i
    by_cases hiw : i = w
    · subst hiw
      rw [hpc, hc] at this
      simpa [WorkerPc.held, CollPc.held] using this
    · simpa [hiw] using this
  case workerWake =>
    intro w _ hpc i
    have := h1 i
    by_cases hiw : i = w
    · subst hiw
      rw [hpc] at this
      simpa [WorkerPc.held] using this
    · simpa [hiw] using this
  case collClosed =>
    intro w _ hc _ i
    have := h1 i
    by_cases hiw : i = w
    · subst hiw
      rw [hc] at this
      simpa [CollPc.held] using this
    · simpa [hiw] using this
  case collInc =>
    intro w v _ hc i
    have := h1 i
    by_cases hiw : i = w
    · subst hiw
      rw [hc] at this
      simpa [CollPc.held] using this
    · simpa [hiw] using this
  case collSend =>
    intro w v _ _ _ hc i
    have := h1 i
    by_cases hiw : i = w
    · subst hiw
      rw [hc] at this
      simp only [CollPc.held, viaSlot_append] at this
      simp only [upd_same, CollPc.held, viaSlot_append, viaSlot_single, if_true]
      rw [← this]
      simp
    · have hwi : ¬ w = i := fun e => hiw e.symm
      simp only [viaSlot_append] at this
      simp only [upd_other _ _ hiw, viaSlot_append, viaSlot_single, if_neg hwi,
        List.append_nil]
      exact this
  case mainRecv =>
    intro j v rest _ hb i
    have := h1 i
    rw [hb] at this
    simpa using this
  all_goals (intros; exact h1 _)

theorem inv_bag {N : Nat} {s s' : State} {a : Action} (hI : Inv N s)
    (h : step N s a = some s') :
    (↑s'.published : Multiset Int) = ∑ i in Finset.range N, (↑(s'.taken i) : Multiset Int) := by
  have h1 := hI.bag
  apply step_elim h (fun _ t =>
    (↑t.published : Multiset Int) = ∑ i in Finset.range N, (↑(t.taken i) : Multiset Int))
  case genSend =>
    intro w hw _ _
    have key := sum_upd hw (fun j => (↑(s.taken j) : Multiset Int))
      (↑(s.taken w ++ [s.gen.value]) : Multiset Int)
    have e : (∑ j in Finset.range N,
        upd (fun j => (↑(s.taken j) : Multiset Int)) w (↑(s.taken w ++ [s.gen.value])) j)
        = ∑ j in Finset.range N, (↑(upd s.taken w (s.taken w ++ [s.gen.value]) j) : Multiset Int) := by
      apply Finset.sum_congr rfl
      intro j _
      simp only [upd_apply]; split_ifs <;> rfl
    rw [e, ← h1] at key
    show (↑(s.published ++ [s.gen.value]) : Multiset Int) = _
    have e2 : (↑(s.taken w ++ [s.gen.value]) : Multiset Int)
        = ↑(s.taken w) + {s.gen.value} := by
      rw [← Multiset.coe_add]; rfl
    have e3 : (↑(s.published ++ [s.gen.value]) : Multiset Int)
        = ↑s.published + {s.gen.value} := by
      rw [← Multiset.coe_add]; rfl
    rw [e2] at key
    rw [e3]
    have key2 : (∑ j in Finset.range N,
        (↑(upd s.taken w (s.taken w ++ [s.gen.value]) j) : Multiset Int)) + ↑(s.taken w)
        = (↑s.published + {s.gen.value}) + ↑(s.taken w) := by
      rw [key]; abel
    exact (add_right_cancel key2).symm
  all_goals (intros; exact h1)

theorem inv_tags {N : Nat} {s s' : State} {a : Action} (hI : Inv N s)
    (h : step N s a = some s') : ∀ p ∈ s'.merged ++ s'.chOut, p.1 < N := by
  have h1 := hI.tags
  apply step_elim h (fun _ t => ∀ p ∈ t.merged ++ t.chOut, p.1 < N)
  case collSend =>
    intro w v hw _ _ _ p hp
    simp only [List.mem_append, List.mem_singleton] at hp
    rcases hp with hp | hp | hp
    · exact h1 p (List.mem_append_left _ hp)
    · exact h1 p (List.mem_append_right _ hp)
    · subst hp; exact hw
  case mainRecv =>
    intro j v rest _ hb p hp
    apply h1 p
    rw [hb]
    simpa using hp
  all_goals (intros; exact h1 _ ‹_›)

theorem inv_sub {N : Nat} {s s' : State} {a : Action} (hI : Inv N s)
    (h : step N s a = some s') : ∀ i, (s'.taken i).Sublist s'.published := by
  have h1 := hI.sub
  apply step_elim h (fun _ t => ∀ i, (t.taken i).Sublist t.published)
  case genSend =>
    intro w _ _ _ i
    by_cases hiw : i = w
    · subst hiw
      simpa using (h1 i).append (List.Sublist.refl [s.gen.value])
    · simpa [hiw] using (h1 i).trans (List.sublist_append_left _ _)
  all_goals (intros; exact h1 _)

theorem inv_tally {N : Nat} {s s' : State} {a : Action} (hI : Inv N s)
    (h : step N s a = some s') :
    ∀ i, s'.amounts i = wrap64 (((viaSlot i (s'.merged ++ s'.chOut)).length
      + (s'.collectors i).counted : Nat) : Int) := by
  have h1 := hI.tally
  apply step_elim h (fun _ t =>
    ∀ i, t.amounts i = wrap64 (((viaSlot i (t.merged ++ t.chOut)).length
      + (t.collectors i).counted : Nat) : Int))
  case workerSend =>
    intro w v _ hc _ i
    have := h1 i
    by_cases hiw : i = w
    · subst hiw
      rw [hc] at this
      simpa [CollPc.counted] using this
    · simpa [hiw] using this
  case collClosed =>
    intro w _ hc _ i
    have := h1 i
    by_cases hiw : i = w
    · subst hiw
      rw [hc] at this
      simpa [CollPc.counted] using this
    · simpa [hiw] using this
  case collInc =>
    intro w v _ hc i
    have := h1 i
    by_cases hiw : i = w
    · subst hiw
      rw [hc] at this
      simp only [upd_same, CollPc.counted] at this ⊢
      rw [this, wrap64_add_left]
      push_cast
      simp
    · simpa [hiw] using this
  case collSend =>
    intro w v _ _ _ hc i
    have := h1 i
    by_cases hiw : i = w
    · subst hiw
      rw [hc] at this
      simp only [upd_same, CollPc.counted, viaSlot_append, viaSlot_single, if_true,
        List.length_append, List.length_singleton] at this ⊢
      rw [this]
      congr 1
    · have hwi : ¬ w = i := fun e => hiw e.symm
      simp only [viaSlot_append] at this
      simp only [upd_other _ _ hiw, viaSlot_append, viaSlot_single, if_neg hwi,
        List.append_nil]
      exact this
  case mainRecv =>
    intro j v rest _ hb i
    have := h1 i
    rw [hb] at this
    simpa using this
  all_goals (intros; exact h1 _)

theorem inv_cnt {N : Nat} {s s' : State} {a : Action} (hI : Inv N s)
    (h : step N s a = some s') : s'.count = wrap64 (s'.merged.length : Int) := by
  have h1 := hI.cnt
  apply step_elim h (fun _ t => t.count = wrap64 (t.merged.length : Int))
  case mainRecv =>
    intro j v rest _ _
    show wrap64 (s.count + 1) = wrap64 ((s.merged ++ [(j, v)]).length : Int)
    rw [h1, wrap64_add_left]
    simp
  all_goals (intros; exact h1)

theorem inv_sm {N : Nat} {s s' : State} {a : Action} (hI : Inv N s)
    (h : step N s a = some s') : s'.sum = wrap64 (s'.merged.map Prod.snd).sum := by
  have h1 := hI.sm
  apply step_elim h (fun _ t => t.sum = wrap64 (t.merged.map Prod.snd).sum)
  case mainRecv =>
    intro j v rest _ _
    show wrap64 (s.sum + v) = wrap64 ((s.merged ++ [(j, v)]).map Prod.snd).sum
    rw [h1, wrap64_add_left]
    simp
  all_goals (intros; exact h1)

theorem inv_step {N : Nat} {s s' : State} {a : Action} (hI : Inv N s)
    (h : step N s a = some s') : Inv N s' where
  fn_mid := inv_fn_mid hI h
  chIn_closed := inv_chIn_closed hI h
  out_closed := inv_out_closed hI h
  worker_done := inv_worker_done hI h
  coll_done := inv_coll_done hI h
  wg_eq := inv_wg_eq hI h
  chOut_closed := inv_chOut_closed hI h
  drained := inv_drained hI h
  value_eq := inv_value_eq hI h
  last_eq := inv_last_eq hI h
  pub_eq := inv_pub_eq hI h
  obs_eq := inv_obs_eq hI h
  sum_eq := inv_sum_eq hI h
  count_eq := inv_count_eq hI h
  flow := inv_flow hI h
  bag := inv_bag hI h
  tags := inv_tags hI h
  sub := inv_sub hI h
  tally := inv_tally hI h
  cnt := inv_cnt hI h
  sm := inv_sm hI h

theorem inv_next {N : Nat} {s : State} (a : Action) (hI : Inv N s) : Inv N (next N s a) := by
  unfold next
  cases h : step N s a with
  | none => simpa using hI
  | some s' => simpa using inv_step hI h

theorem inv_foldl {N : Nat} (acts : List Action) :
    ∀ s, Inv N s → Inv N (acts.foldl (next N) s) := by
  induction acts with
  | nil => intro s hs; exact hs
  | cons a acts ih => intro s hs; exact ih _ (inv_next a hs)

theorem inv_exec (N : Nat) (acts : List Action) : Inv N (exec N acts) :=
  inv_foldl acts _ (inv_init N)

theorem exec_append (N : Nat) (acts : List Action) (a : Action) :
    exec N (acts ++ [a]) = next N (exec N acts) a := by
  simp [exec, List.foldl_append]

theorem reachable_exec (N : Nat) (acts : List Action) : Reachable N (exec N acts) := by
  induction acts using List.reverseRecOn with
  | nil => exact Reachable.init
  | append_singleton l a ih =>
    rw [exec_append]
    unfold next
    cases h : step N (exec N l) a with
    | none => simpa using ih
    | some s' => simpa using Reachable.step ih h

/-- Every reachable state is the state of some schedule, and conversely. -/
theorem reachable_iff (N : Nat) (s : State) : Reachable N s ↔ ∃ acts, exec N acts = s := by
  constructor
  · intro h
    induction h with
    | init => exact ⟨[], rfl⟩
    | step _ hs ih =>
      obtain ⟨acts, rfl⟩ := ih
      rename_i a _
      exact ⟨acts ++ [a], by rw [exec_append]; simp [next, hs]⟩
  · rintro ⟨acts, rfl⟩
    exact reachable_exec N acts

/-! ## Consequences of the invariant -/

theorem bucket (N : Nat) (l : List (Nat × Int)) (hl : ∀ p ∈ l, p.1 < N) :
    (↑(l.map Prod.snd) : Multiset Int) = ∑ i in Finset.range N, (↑(viaSlot i l) : Multiset Int) := by
  induction l with
  | nil => simp [viaSlot]
  | cons p l ih =>
    obtain ⟨j, v⟩ := p
    have hj : j < N := hl (j, v) (List.mem_cons_self _ _)
    have ih' := ih (fun p hp => hl p (List.mem_cons_of_mem _ hp))
    have e : ∀ i, (↑(viaSlot i ((j, v) :: l)) : Multiset Int)
        = (if j = i then {v} else 0) + ↑(viaSlot i l) := by
      intro i
      rw [viaSlot_cons, ← Multiset.coe_add]
      by_cases h : j = i <;> simp [h]
    simp only [e, Finset.sum_add_distrib, Finset.sum_ite_eq, Finset.mem_range, hj, if_true,
      List.map_cons]
    rw [← ih']
    rfl

theorem viaSlot_merged_le {N : Nat} {s : State} (hI : Inv N s) (i : Nat) :
    (↑(viaSlot i s.merged) : Multiset Int) ≤ ↑(s.taken i) := by
  rw [← hI.flow i, viaSlot_append, List.append_assoc, List.append_assoc]
  exact (List.sublist_append_left _ _).subperm

theorem merged_le_published {N : Nat} {s : State} (hI : Inv N s) :
    (↑(s.merged.map Prod.snd) : Multiset Int) ≤ ↑s.published := by
  rw [bucket N s.merged (fun p hp => hI.tags p (List.mem_append_left _ hp)), hI.bag]
  exact Finset.sum_le_sum (fun i _ => viaSlot_merged_le hI i)

theorem complete_viaSlot {N : Nat} {s : State} (hI : Inv N s) (hc : complete N s)
    (i : Nat) (hi : i < N) : viaSlot i s.merged = s.taken i := by
  obtain ⟨_, _, ho, hcl, hb⟩ := hc
  have hw : s.workers i = .done := (hI.out_closed i).mp (ho i hi)
  have hcd : s.collectors i = .done := hI.chOut_closed hcl i hi
  have := hI.flow i
  rw [hw, hcd, hb] at this
  simpa [CollPc.held, WorkerPc.held] using this

theorem complete_merged {N : Nat} {s : State} (hI : Inv N s) (hc : complete N s) :
    (↑(s.merged.map Prod.snd) : Multiset Int) = ↑s.published := by
  rw [bucket N s.merged (fun p hp => hI.tags p (List.mem_append_left _ hp)), hI.bag]
  exact Finset.sum_congr rfl
    (fun i hi => by rw [complete_viaSlot hI hc i (Finset.mem_range.mp hi)])

theorem complete_observed {N : Nat} {s : State} (hI : Inv N s) (hc : complete N s) :
    s.observed = s.published ∧ s.fnMid = false := by
  have hg : s.gen.pc = .done := hc.1
  have hf : s.fnMid = false := by
    cases hfm : s.fnMid
    · rfl
    · have := hI.fn_mid hfm; rw [hg] at this; cases this
  have := hI.obs_eq
  simp [hg] at this
  exact ⟨this, hf⟩

theorem complete_count {N : Nat} {s : State} (hI : Inv N s) (hc : complete N s) :
    s.count = s.inputCount := by
  obtain ⟨ho, hf⟩ := complete_observed hI hc
  have hm := congrArg Multiset.card (complete_merged hI hc)
  simp only [Multiset.coe_card, List.length_map] at hm
  rw [hI.cnt, hI.count_eq, ho, hf, hm]
  simp

theorem complete_sum {N : Nat} {s : State} (hI : Inv N s) (hc : complete N s) :
    s.sum = s.inputSum := by
  obtain ⟨ho, _⟩ := complete_observed hI hc
  have hm := congrArg Multiset.sum (complete_merged hI hc)
  simp only [Multiset.sum_coe] at hm
  rw [hI.sm, hI.sum_eq, ho, hm]

theorem length_bucket (N : Nat) (l : List (Nat × Int)) (hl : ∀ p ∈ l, p.1 < N) :
    l.length = ∑ i in Finset.range N, (viaSlot i l).length := by
  have := congrArg Multiset.card (bucket N l hl)
  simpa using this

theorem wrap64_list_sum (l : List Int) : wrap64 (l.map wrap64).sum = wrap64 l.sum := by
  induction l with
  | nil => rfl
  | cons x l ih =>
    simp only [List.map_cons, List.sum_cons]
    rw [← wrap64_add_right, ih, wrap64_add_right, wrap64_add_left]

theorem complete_amounts {N : Nat} {s : State} (hI : Inv N s) (hc : complete N s) :
    amountsList N s = (List.range N).map (fun i => wrap64 ((s.taken i).length : Int)) := by
  unfold amountsList
  apply List.map_congr_left
  intro i hi
  have hi' : i < N := List.mem_range.mp hi
  have hcd : s.collectors i = .done := hI.chOut_closed hc.2.2.2.1 i hi'
  have := hI.tally i
  rw [hcd, hc.2.2.2.2, List.append_nil, complete_viaSlot hI hc i hi'] at this
  simpa [CollPc.counted] using this

theorem list_sum_range (f : Nat → Int) (N : Nat) :
    ((List.range N).map f).sum = ∑ i in Finset.range N, f i := by
  induction N with
  | zero => simp
  | succ n ih => simp [List.range_succ, Finset.sum_range_succ, ih]

theorem complete_taken_length {N : Nat} {s : State} (hI : Inv N s) (hc : complete N s) :
    ((List.range N).map (fun i => ((s.taken i).length : Int))).sum = (s.merged.length : Int) := by
  rw [list_sum_range, length_bucket N s.merged (fun p hp => hI.tags p (List.mem_append_left _ hp))]
  push_cast
  exact Finset.sum_congr rfl
    (fun i hi => by rw [complete_viaSlot hI hc i (Finset.mem_range.mp hi)])

theorem complete_amounts_wrap {N : Nat} {s : State} (hI : Inv N s) (hc : complete N s) :
    wrap64 (amountsList N s).sum = s.count := by
  have e : (List.range N).map (fun i => wrap64 ((s.taken i).length : Int))
      = ((List.range N).map (fun i => ((s.taken i).length : Int))).map wrap64 := by
    rw [List.map_map]; rfl
  rw [complete_amounts hI hc, e, wrap64_list_sum, complete_taken_length hI hc, hI.cnt]

theorem taken_length_le {N : Nat} {s : State} (hI : Inv N s) (i : Nat) :
    (s.taken i).length ≤ s.published.length :=
  (hI.sub i).length_le

theorem complete_amounts_exact {N : Nat} {s : State} (hI : Inv N s) (hc : complete N s)
    (hb : s.published.length < 2 ^ 63) : (amountsList N s).sum = s.count := by
  have e : (List.range N).map (fun i => wrap64 ((s.taken i).length : Int))
      = (List.range N).map (fun i => ((s.taken i).length : Int)) := by
    apply List.map_congr_left
    intro i _
    apply wrap64_of_isInt64
    have := taken_length_le hI i
    unfold isInt64
    constructor <;> omega
  have hm := congrArg Multiset.card (complete_merged hI hc)
  simp only [Multiset.coe_card, List.length_map] at hm
  rw [complete_amounts hI hc, e, complete_taken_length hI hc, hI.cnt]
  symm
  apply wrap64_of_isInt64
  unfold isInt64
  constructor <;> omega

/-! ## The checks at the end of `main` -/

theorem subtractAll_wrap (amounts : List Int) :
    ∀ ic : Int, wrap64 (subtractAll ic amounts) = wrap64 (ic - amounts.sum) := by
  induction amounts with
  | nil => intro ic; simp [subtractAll]
  | cons v l ih =>
    intro ic
    have := ih (wrap64 (ic + wrap64 (v * (-1))))
    unfold subtractAll at this ⊢
    rw [List.foldl_cons, this, wrap64_sub_left, List.sum_cons]
    have e : ic + wrap64 (v * (-1)) - l.sum = (ic - l.sum) + wrap64 (v * (-1)) := by ring
    rw [e, wrap64_add_right]
    congr 1
    ring

theorem subtractAll_isInt64 (amounts : List Int) :
    ∀ ic : Int, isInt64 ic → isInt64 (subtractAll ic amounts) := by
  induction amounts with
  | nil => intro ic h; exact h
  | cons v l ih =>
    intro ic _
    exact ih _ (wrap64_isInt64 _)

theorem subtractAll_eq {ic : Int} (h : isInt64 ic) (amounts : List Int) :
    subtractAll ic amounts = wrap64 (ic - amounts.sum) := by
  rw [← subtractAll_wrap, wrap64_of_isInt64 (subtractAll_isInt64 amounts ic h)]

theorem sum_nonneg_of_forall {l : List Int} (h : ∀ v ∈ l, 0 ≤ v) : 0 ≤ l.sum :=
  List.sum_nonneg h

theorem subtractAll_eq_zero_iff {ic : Int} (h : isInt64 ic) {amounts : List Int}
    (hnn : ∀ v ∈ amounts, 0 ≤ v) (hfit : amounts.sum < 2 ^ 63) :
    subtractAll ic amounts = 0 ↔ amounts.sum = ic := by
  rw [subtractAll_eq h]
  have h0 := sum_nonneg_of_forall hnn
  have hfit' : amounts.sum < 9223372036854775808 := by norm_num at hfit; exact hfit
  unfold isInt64 at h
  unfold wrap64
  omega

/-- C2: for an `int64` observation count and non-negative tallies whose exact
total fits in `int64`, the checks at the end of `main` end fatally exactly
when `sum != inputSum`, `count != inputCount` or the total of the tallies
differs from `inputCount`, and succeed exactly when the three equalities hold. -/
theorem C2_verify_fatal_iff (inputCount inputSum count sum : Int) (amounts : List Int)
    (hic : isInt64 inputCount) (hnn : ∀ v ∈ amounts, 0 ≤ v) (hfit : amounts.sum < 2 ^ 63) :
    (verify inputCount inputSum count sum amounts ≠ .ok ↔
      (sum ≠ inputSum ∨ count ≠ inputCount ∨ amounts.sum ≠ inputCount)) ∧
    (verify inputCount inputSum count sum amounts = .ok ↔
      (sum = inputSum ∧ count = inputCount ∧ amounts.sum = inputCount)) := by
  have hz := subtractAll_eq_zero_iff hic hnn hfit
  unfold verify
  by_cases h1 : inputSum = sum
  · by_cases h2 : inputCount = count
    · by_cases h3 : subtractAll inputCount amounts = 0
      · have h4 := hz.mp h3
        subst h1 h2
        simp [h3, h4]
      · have h4 : ¬ amounts.sum = inputCount := fun e => h3 (hz.mpr e)
        subst h1 h2
        simp [h3, h4]
    · have h2' : ¬ count = inputCount := fun e => h2 e.symm
      simp [h1, h2, h2']
  · have h1' : ¬ sum = inputSum := fun e => h1 e.symm
    simp [h1, h1']

/-- C2 at `inputCount = inputSum = count = sum = 3` and tallies `[1, 0, 2]`. -/
theorem C2_verify_fatal_iff_witness :
    (verify 3 3 3 3 [1, 0, 2] ≠ .ok ↔
      ((3 : Int) ≠ 3 ∨ (3 : Int) ≠ 3 ∨ ([1, 0, 2] : List Int).sum ≠ 3)) ∧
    (verify 3 3 3 3 [1, 0, 2] = .ok ↔
      ((3 : Int) = 3 ∧ (3 : Int) = 3 ∧ ([1, 0, 2] : List Int).sum = 3)) :=
  C2_verify_fatal_iff 3 3 3 3 [1, 0, 2] (by unfold isInt64; decide) (by decide) (by decide)

/-! ## The end of the run -/

theorem complete_outcome {N : Nat} {s : State} (hI : Inv N s) (hc : complete N s) :
    outcome N s = .ok := by
  have h1 := complete_sum hI hc
  have h2 := complete_count hI hc
  have h3 := complete_amounts_wrap hI hc
  have hic : isInt64 s.inputCount := by
    rw [hI.count_eq]; exact wrap64_isInt64 _
  have h4 : subtractAll s.inputCount (amountsList N s) = 0 := by
    rw [subtractAll_eq hic, ← h2, ← h3, wrap64_sub_left, sub_self]
    rfl
  unfold outcome verify
  rw [if_neg (not_not.mpr h1.symm), if_neg (not_not.mpr h2.symm), if_neg (not_not.mpr h4)]

/-- C1: when the run is over, the merged count equals the observed count, the
merged sum equals the observed sum, and the total of the per-worker tallies
equals the merged count (as `int64` values in every run, and as exact
integers when fewer than `2^63` values were emitted); the checks at the end
of `main` pass. -/
theorem C1_totals_agree (N : Nat) (acts : List Action) (hc : complete N (exec N acts)) :
    (exec N acts).count = (exec N acts).inputCount ∧
    (exec N acts).sum = (exec N acts).inputSum ∧
    wrap64 (amountsList N (exec N acts)).sum = (exec N acts).count ∧
    ((exec N acts).published.length < 2 ^ 63 →
      (amountsList N (exec N acts)).sum = (exec N acts).count) ∧
    outcome N (exec N acts) = .ok :=
  have hI := inv_exec N acts
  ⟨complete_count hI hc, complete_sum hI hc, complete_amounts_wrap hI hc,
    complete_amounts_exact hI hc, complete_outcome hI hc⟩

/-- C1 at the schedule `demo3`: three values, tallies `[2, 1]`. -/
theorem C1_totals_agree_witness :
    complete 2 (exec 2 demo3) ∧ amountsList 2 (exec 2 demo3) = [2, 1] ∧
    (exec 2 demo3).count = (exec 2 demo3).inputCount ∧
    (exec 2 demo3).sum = (exec 2 demo3).inputSum ∧
    wrap64 (amountsList 2 (exec 2 demo3)).sum = (exec 2 demo3).count ∧
    ((exec 2 demo3).published.length < 2 ^ 63 →
      (amountsList 2 (exec 2 demo3)).sum = (exec 2 demo3).count) ∧
    outcome 2 (exec 2 demo3) = .ok :=
  ⟨by decide, by decide, C1_totals_agree 2 demo3 (by decide)⟩

/-! ## The emitted sequence -/

theorem published_exact {N : Nat} {s : State} (hI : Inv N s)
    (hb : s.published.length ≤ 2 ^ 63) :
    s.published = (List.range s.published.length).map (fun k : Nat => (k : Int)) := by
  have h := hI.pub_eq
  rw [h]
  simp only [List.length_map, List.length_range]
  apply List.map_congr_left
  intro k hk
  have hk' : k < s.published.length := List.mem_range.mp hk
  apply wrap64_of_isInt64
  unfold isInt64
  have hb' : s.published.length ≤ 9223372036854775808 := by norm_num at hb; exact hb
  constructor <;> omega

theorem published_nodup {N : Nat} {s : State} (hI : Inv N s)
    (hb : s.published.length ≤ 2 ^ 64) : s.published.Nodup := by
  rw [hI.pub_eq]
  apply List.Nodup.map_on _ (List.nodup_range _)
  intro x hx y hy hxy
  have hx' : x < s.published.length := List.mem_range.mp hx
  have hy' : y < s.published.length := List.mem_range.mp hy
  have hb' : s.published.length ≤ 18446744073709551616 := by norm_num at hb; exact hb
  unfold wrap64 at hxy
  omega

theorem published_sorted {N : Nat} {s : State} (hI : Inv N s)
    (hb : s.published.length ≤ 2 ^ 63) : s.published.Pairwise (· < ·) := by
  rw [published_exact hI hb]
  rw [List.pairwise_map]
  exact (List.pairwise_lt_range _).imp (fun h => by exact_mod_cast h)

/-- C3: at every reachable state no value occurs more often among the values
`main` has read from `chOut` than among the values sent on `chIn`, and while
at most `2^64` values have been sent (the `int64` counter has not come back
to a value it already had) the values read from `chOut` are pairwise
different. -/
theorem C3_merged_unique (N : Nat) (acts : List Action) :
    (∀ v : Int, ((exec N acts).merged.map Prod.snd).count v
      ≤ (exec N acts).published.count v) ∧
    ((exec N acts).published.length ≤ 2 ^ 64 →
      ((exec N acts).merged.map Prod.snd).Nodup) := by
  have hI := inv_exec N acts
  have hle := merged_le_published hI
  constructor
  · intro v
    have := Multiset.count_le_of_le v hle
    simpa using this
  · intro hb
    have hn : (↑(exec N acts).published : Multiset Int).Nodup :=
      Multiset.coe_nodup.mpr (published_nodup hI hb)
    exact Multiset.coe_nodup.mp (Multiset.nodup_of_le hle hn)

theorem closed_complete {N : Nat} {s : State} (hI : Inv N s) (hN : 0 < N)
    (hcl : s.chOutClosed = true) (hb : s.chOut = []) : complete N s := by
  have hd := hI.chOut_closed hcl
  have ho : ∀ i, i < N → s.outClosed i = true := fun i hi => hI.coll_done i (hd i hi)
  have hin : s.chInClosed = true := hI.worker_done 0 ((hI.out_closed 0).mp (ho 0 hN))
  exact ⟨hI.chIn_closed.mp hin, hin, ho, hcl, hb⟩

theorem empty_pool {s : State} (hI : Inv 0 s) :
    s.published = [] ∧ s.observed = [] ∧ s.merged = [] ∧ s.fnMid = false := by
  have hp : s.published = [] := by
    have := hI.bag
    simpa using this
  have hm : s.merged = [] := by
    have := merged_le_published hI
    rw [hp] at this
    simpa using this
  have ho : s.observed = [] := by
    have := hI.obs_eq
    rw [hp] at this
    exact (List.append_eq_nil.mp this).1
  have hf : s.fnMid = false := by
    cases hfm : s.fnMid
    · rfl
    · have hc := hI.fn_mid hfm
      have hl := hI.last_eq (by rw [hc]; rfl)
      rw [hp] at hl
      simp at hl
  exact ⟨hp, ho, hm, hf⟩

/-- C7: once `chOut` is closed and empty the merged count is not greater
than the observed count, and no value occurs more often among the values
read from `chOut` than among the values passed to the observer. -/
theorem C7_count_le (N : Nat) (acts : List Action)
    (hcl : (exec N acts).chOutClosed = true) (hb : (exec N acts).chOut = []) :
    (exec N acts).count ≤ (exec N acts).inputCount ∧
    (∀ v : Int, ((exec N acts).merged.map Prod.snd).count v
      ≤ (exec N acts).observed.count v) := by
  have hI := inv_exec N acts
  rcases Nat.eq_zero_or_pos N with hN | hN
  · subst hN
    obtain ⟨_, ho, hm, hf⟩ := empty_pool hI
    constructor
    · rw [hI.cnt, hI.count_eq, hm, ho, hf]
      simp
    · intro v
      rw [hm]
      simp
  · have hc := closed_complete hI hN hcl hb
    refine ⟨le_of_eq (complete_count hI hc), ?_⟩
    intro v
    rw [(complete_observed hI hc).1]
    have := Multiset.count_le_of_le v (merged_le_published hI)
    simpa using this

/-- C7 at the schedule `demo`. -/
theorem C7_count_le_witness :
    (exec 2 demo).chOutClosed = true ∧ (exec 2 demo).chOut = [] ∧
    (exec 2 demo).count ≤ (exec 2 demo).inputCount ∧
    (∀ v : Int, ((exec 2 demo).merged.map Prod.snd).count v
      ≤ (exec 2 demo).observed.count v) :=
  ⟨by decide, by decide, C7_count_le 2 demo (by decide) (by decide)⟩

/-- C9: for every worker slot `i`, the values of the merged stream that came
through slot `i` are, in the same order, the first values worker `i` took
from `chIn`, these were taken in the order in which they were sent, and
while at most `2^63` values have been sent (the counter has not wrapped) the
values of the merged stream that came through slot `i` are strictly
increasing; across slots the order is not kept: in the schedule `demo3` the
value 2 of slot 0 is merged before the value 1 of slot 1. -/
theorem C9_order_per_worker (N : Nat) (acts : List Action) (i : Nat) :
    viaSlot i (exec N acts).merged <+: (exec N acts).taken i ∧
    ((exec N acts).taken i).Sublist (exec N acts).published ∧
    ((exec N acts).published.length ≤ 2 ^ 63 →
      (viaSlot i (exec N acts).merged).Pairwise (· < ·)) ∧
    (exec 2 demo3).merged = [(0, 0), (0, 2), (1, 1)] := by
  have hI := inv_exec N acts
  have hp : viaSlot i (exec N acts).merged <+: (exec N acts).taken i := by
    rw [← hI.flow i, viaSlot_append, List.append_assoc, List.append_assoc]
    exact List.prefix_append _ _
  refine ⟨hp, hI.sub i, ?_, by decide⟩
  intro hb
  exact ((published_sorted hI hb).sublist (hI.sub i)).sublist hp.sublist

theorem pend_zero_of {pc : GenPc} (h : pc = .sel ∨ pc = .done) : pc.pend = 0 := by
  rcases h with h | h <;> subst h <;> rfl

theorem pend_one_of {pc : GenPc} (h : pc = .call ∨ pc = .inc) : pc.pend = 1 := by
  rcases h with h | h <;> subst h <;> rfl

theorem step_genReturn {N : Nat} {s s' : State} (h : step N s .genReturn = some s') :
    s.ctxDone = true ∧ s.gen.pc = .sel ∧ s'.gen.pc = .done ∧
      s'.observed = s.observed ∧ s'.published = s.published := by
  simp only [step] at h
  split_ifs at h with hc
  cases hg : s.gen.pc <;> simp [Generator, hg] at h
  subst h
  exact ⟨hc, rfl, rfl, rfl, rfl⟩

/-- C5: at every reachable state, with `n` the number of values sent on
`chIn`: the values sent are the `int64` values of `0, 1, ..., n-1` in this
order, which are the integers `0, 1, ..., n-1` themselves as long as
`n ≤ 2^63`; the arguments of the observer calls are, in order, the values
sent, except that the call for the last value sent may not have been made
yet; while the observer runs and until `value.Add(1)` the counter still holds
the value sent; and the return on cancellation calls the observer for no
value and sends none. -/
theorem C5_generator_sequence (N : Nat) (acts : List Action) :
    (exec N acts).published
      = (List.range (exec N acts).published.length).map (fun k : Nat => wrap64 (k : Int)) ∧
    ((exec N acts).published.length ≤ 2 ^ 63 →
      (exec N acts).published
        = (List.range (exec N acts).published.length).map (fun k : Nat => (k : Int)) ∧
      (exec N acts).published.Nodup) ∧
    (exec N acts).observed
        ++ (if (exec N acts).gen.pc = .call ∧ (exec N acts).fnMid = false
            then [(exec N acts).gen.value] else [])
      = (exec N acts).published ∧
    ((exec N acts).gen.pc = .call ∨ (exec N acts).gen.pc = .inc →
      (exec N acts).published.getLast? = some (exec N acts).gen.value) ∧
    ((exec N acts).gen.pc = .sel ∨ (exec N acts).gen.pc = .done →
      (exec N acts).gen.value = wrap64 ((exec N acts).published.length : Int)) ∧
    (∀ s', step N (exec N acts) .genReturn = some s' →
      s'.observed = (exec N acts).observed ∧ s'.published = (exec N acts).published ∧
      s'.observed = s'.published) := by
  have hI := inv_exec N acts
  refine ⟨hI.pub_eq, ?_, hI.obs_eq, ?_, ?_, ?_⟩
  · intro hb
    have he := published_exact hI hb
    refine ⟨he, ?_⟩
    rw [he]
    exact List.Nodup.map_on (fun x _ y _ h => by exact_mod_cast h) (List.nodup_range _)
  · intro h
    exact hI.last_eq (pend_one_of h)
  · intro h
    have := hI.value_eq
    rw [pend_zero_of h] at this
    simpa using this
  · intro s' hs
    obtain ⟨_, hg, _, h1, h2⟩ := step_genReturn hs
    have ho := hI.obs_eq
    simp [hg] at ho
    exact ⟨h1, h2, by rw [h1, h2, ho]⟩

theorem gauss_range (n : Nat) :
    ((List.range n).map (fun k : Nat => (k : Int))).sum = ((n * (n - 1) / 2 : Nat) : Int) := by
  rw [list_sum_range, ← Nat.cast_sum, Finset.sum_range_id]

theorem le_of_triangle_lt {n : Nat} (h : n * (n - 1) / 2 < 2 ^ 63) : n < 2 ^ 63 := by
  by_contra hn
  push_neg at hn
  have h3 : 3 ≤ n - 1 := by
    have : (2 : Nat) ^ 63 = 9223372036854775808 := by norm_num
    omega
  have h1 : n * 3 ≤ n * (n - 1) := Nat.mul_le_mul_left n h3
  have h2 : n ≤ n * (n - 1) / 2 := by
    rw [Nat.le_div_iff_mul_le (by norm_num)]
    omega
  omega

theorem observed_settled {N : Nat} {s : State} (hI : Inv N s)
    (hpc : s.gen.pc = .sel ∨ s.gen.pc = .inc ∨ s.gen.pc = .done) :
    s.observed = s.published ∧ s.fnMid = false := by
  have hnc : s.gen.pc ≠ .call := by
    rcases hpc with h | h | h <;> rw [h] <;> decide
  have ho := hI.obs_eq
  have hf : s.fnMid = false := by
    cases hfm : s.fnMid
    · rfl
    · exact absurd (hI.fn_mid hfm) hnc
  simp [hnc] at ho
  exact ⟨ho, hf⟩

/-- C10: at a reachable state in which `Generator` has completed `n`
emissions (it is at the `select`, about to increment the counter after the
`n`-th observer call, or has returned) and `n*(n-1)/2 < 2^63`: `inputCount`
is `n`, `inputSum` is `n*(n-1)/2`, `2*inputSum = inputCount*(inputCount-1)`,
and if the checks of `main` pass then `sum = count*(count-1)/2`. -/
theorem C10_closed_form (N : Nat) (acts : List Action)
    (hpc : (exec N acts).gen.pc = .sel ∨ (exec N acts).gen.pc = .inc ∨
      (exec N acts).gen.pc = .done)
    (hb : (exec N acts).published.length * ((exec N acts).published.length - 1) / 2 < 2 ^ 63) :
    (exec N acts).inputCount = ((exec N acts).published.length : Int) ∧
    (exec N acts).inputSum
      = (((exec N acts).published.length * ((exec N acts).published.length - 1) / 2 : Nat)
          : Int) ∧
    2 * (exec N acts).inputSum = (exec N acts).inputCount * ((exec N acts).inputCount - 1) ∧
    (outcome N (exec N acts) = .ok →
      (exec N acts).sum = (exec N acts).count * ((exec N acts).count - 1) / 2) := by
  have hI := inv_exec N acts
  obtain ⟨ho, hf⟩ := observed_settled hI hpc
  have hn := le_of_triangle_lt hb
  have hn' : (exec N acts).published.length < 9223372036854775808 := by
    norm_num at hn; exact hn
  have hb' : (exec N acts).published.length * ((exec N acts).published.length - 1) / 2
      < 9223372036854775808 := by norm_num at hb; exact hb
  have hcount : (exec N acts).inputCount = ((exec N acts).published.length : Int) := by
    rw [hI.count_eq, hf, ho]
    simp only [Bool.false_eq_true, if_false, sub_zero]
    apply wrap64_of_isInt64
    unfold isInt64
    constructor <;> omega
  have hsum : (exec N acts).inputSum
      = (((exec N acts).published.length * ((exec N acts).published.length - 1) / 2 : Nat)
          : Int) := by
    rw [hI.sum_eq, ho]
    have he := published_exact hI (le_of_lt hn)
    rw [congrArg List.sum he, gauss_range]
    apply wrap64_of_isInt64
    unfold isInt64
    constructor <;> omega
  have htwo : 2 * (exec N acts).inputSum
      = (exec N acts).inputCount * ((exec N acts).inputCount - 1) := by
    rw [hsum, hcount]
    have h2 := Finset.sum_range_id_mul_two (exec N acts).published.length
    rw [Finset.sum_range_id] at h2
    have h3 : (((exec N acts).published.length * ((exec N acts).published.length - 1) / 2
        * 2 : Nat) : Int)
        = (((exec N acts).published.length * ((exec N acts).published.length - 1) : Nat)
          : Int) := by rw [h2]
    push_cast at h3
    cases hlen : (exec N acts).published.length with
    | zero => simp
    | succ m =>
      rw [hlen] at h3
      simp only [Nat.add_sub_cancel, Nat.cast_add, Nat.cast_one] at h3 ⊢
      push_cast at h3 ⊢
      linarith
  refine ⟨hcount, hsum, htwo, ?_⟩
  intro hok
  unfold outcome verify at hok
  split_ifs at hok with h1 h2 h3
  have h1' : (exec N acts).inputSum = (exec N acts).sum := not_not.mp h1
  have h2' : (exec N acts).inputCount = (exec N acts).count := not_not.mp h2
  rw [← h1', ← h2', ← htwo]
  simp

/-- C10 at the schedule `demo3`, which emits 0, 1, 2. -/
theorem C10_closed_form_witness :
    (exec 2 demo3).inputCount = 3 ∧ (exec 2 demo3).inputSum = 3 ∧
    (exec 2 demo3).published = [0, 1, 2] ∧
    (exec 2 demo3).inputCount = ((exec 2 demo3).published.length : Int) ∧
    (exec 2 demo3).inputSum
      = (((exec 2 demo3).published.length * ((exec 2 demo3).published.length - 1) / 2 : Nat)
          : Int) ∧
    2 * (exec 2 demo3).inputSum = (exec 2 demo3).inputCount * ((exec 2 demo3).inputCount - 1) ∧
    (outcome 2 (exec 2 demo3) = .ok →
      (exec 2 demo3).sum = (exec 2 demo3).count * ((exec 2 demo3).count - 1) / 2) :=
  ⟨by decide, by decide, by decide, C10_closed_form 2 demo3 (by decide) (by decide)⟩

theorem step_closes {N : Nat} {s s' : State} {a : Action} (h : step N s a = some s')
    (hne : s'.chOutClosed ≠ s.chOutClosed) :
    a = .sentinelClose ∧ s.wg = 0 ∧ s.chOutClosed = false ∧ s'.chOutClosed = true := by
  revert hne
  apply step_elim h (fun a t => t.chOutClosed ≠ s.chOutClosed →
    a = .sentinelClose ∧ s.wg = 0 ∧ s.chOutClosed = false ∧ t.chOutClosed = true)
  case sentinelClose => intro hw hc _; exact ⟨rfl, hw, hc, rfl⟩
  all_goals (intros; exact absurd rfl ‹_›)

theorem wg_zero_all_done {N : Nat} {s : State} (hI : Inv N s) (hw : s.wg = 0) :
    ∀ i, i < N → s.collectors i = .done := by
  intro i hi
  have h2 := hI.wg_eq
  rw [hw] at h2
  exact live_eq_zero ((Finset.sum_eq_zero_iff_of_nonneg
    (fun j _ => live_nonneg (s.collectors j))).mp h2.symm i (Finset.mem_range.mpr hi))

theorem done_forwarded {N : Nat} {s : State} (hI : Inv N s) {i : Nat}
    (hd : s.collectors i = .done) :
    s.outClosed i = true ∧ viaSlot i (s.merged ++ s.chOut) = s.taken i := by
  have ho := hI.coll_done i hd
  have hw := (hI.out_closed i).mp ho
  have := hI.flow i
  rw [hd, hw] at this
  exact ⟨ho, by simpa [CollPc.held, WorkerPc.held] using this⟩

/-- C4: at every reachable state in which `chOut` is closed, every collector
has returned, its `outs[i]` is closed and every value its worker took has
been forwarded into `chOut`; and the only step that changes whether `chOut`
is closed is the close after `wg.Wait()`, taken when the counter is zero and
every collector has returned. -/
theorem C4_close_after_collectors (N : Nat) (acts : List Action)
    (hcl : (exec N acts).chOutClosed = true) :
    (∀ i, i < N → (exec N acts).collectors i = .done ∧ (exec N acts).outClosed i = true ∧
      viaSlot i ((exec N acts).merged ++ (exec N acts).chOut) = (exec N acts).taken i) ∧
    (∀ (acts' : List Action) (a : Action) (s' : State), step N (exec N acts') a = some s' →
      s'.chOutClosed ≠ (exec N acts').chOutClosed →
      a = .sentinelClose ∧ (exec N acts').wg = 0 ∧ s'.chOutClosed = true ∧
      ∀ i, i < N → (exec N acts').collectors i = .done) := by
  have hI := inv_exec N acts
  constructor
  · intro i hi
    have hd := hI.chOut_closed hcl i hi
    exact ⟨hd, done_forwarded hI hd⟩
  · intro acts' a s' hs hne
    obtain ⟨ha, hw, _, hc⟩ := step_closes hs hne
    exact ⟨ha, hw, hc, wg_zero_all_done (inv_exec N acts') hw⟩

/-- C4 at the schedule `demo`, in which collector 1 forwards no value. -/
theorem C4_close_after_collectors_witness :
    (exec 2 demo).chOutClosed = true ∧ (exec 2 demo).taken 1 = [] ∧
    (exec 2 demo).amounts 1 = 0 ∧
    (∀ i, i < 2 → (exec 2 demo).collectors i = .done ∧ (exec 2 demo).outClosed i = true ∧
      viaSlot i ((exec 2 demo).merged ++ (exec 2 demo).chOut) = (exec 2 demo).taken i) ∧
    (∀ (acts' : List Action) (a : Action) (s' : State), step 2 (exec 2 acts') a = some s' →
      s'.chOutClosed ≠ (exec 2 acts').chOutClosed →
      a = .sentinelClose ∧ (exec 2 acts').wg = 0 ∧ s'.chOutClosed = true ∧
      ∀ i, i < 2 → (exec 2 acts').collectors i = .done) :=
  ⟨by decide, by decide, by decide, C4_close_after_collectors 2 demo (by decide)⟩

/-! ## Cancellation -/

theorem observed_sub_published {N : Nat} {s : State} (hI : Inv N s) :
    ∀ v ∈ s.observed, v ∈ s.published := by
  intro v hv
  rw [← hI.obs_eq]
  exact List.mem_append_left _ hv

theorem published_taken {N : Nat} {s : State} (hI : Inv N s) :
    ∀ v ∈ s.published, ∃ i, i < N ∧ v ∈ s.taken i := by
  intro v hv
  have hm : v ∈ (↑s.published : Multiset Int) := by simpa using hv
  rw [hI.bag, Multiset.mem_sum] at hm
  obtain ⟨i, hi, hvi⟩ := hm
  exact ⟨i, Finset.mem_range.mp hi, by simpa using hvi⟩

/-- C6 (as amended): in every run ended by the cancellation signal, every
value the observer recorded had been received from `chIn` by a worker, and
the merged count equals the observed count and the merged sum the observed
sum. -/
theorem C6_no_lost_value (N : Nat) (acts : List Action)
    (_hctx : (exec N acts).ctxDone = true) (hc : complete N (exec N acts)) :
    (∀ v ∈ (exec N acts).observed, ∃ i, i < N ∧ v ∈ (exec N acts).taken i) ∧
    (exec N acts).count = (exec N acts).inputCount ∧
    (exec N acts).sum = (exec N acts).inputSum :=
  have hI := inv_exec N acts
  ⟨fun v hv => published_taken hI v (observed_sub_published hI v hv),
    complete_count hI hc, complete_sum hI hc⟩

/-- C6 (as amended) at the schedule `demo3`, which the cancellation ends. -/
theorem C6_no_lost_value_witness :
    (exec 2 demo3).ctxDone = true ∧ complete 2 (exec 2 demo3) ∧
    (exec 2 demo3).observed = [0, 1, 2] ∧
    (∀ v ∈ (exec 2 demo3).observed, ∃ i, i < 2 ∧ v ∈ (exec 2 demo3).taken i) ∧
    (exec 2 demo3).count = (exec 2 demo3).inputCount ∧
    (exec 2 demo3).sum = (exec 2 demo3).inputSum :=
  ⟨by decide, by decide, by decide, C6_no_lost_value 2 demo3 (by decide) (by decide)⟩

/-- C6 (as stated) fails: no run ended by the cancellation signal has a value
recorded by the observer that no worker received together with a mismatch of
the merged and observed totals. -/
theorem C6_lost_value_refuted :
    ¬ ∃ (N : Nat) (acts : List Action),
      (exec N acts).ctxDone = true ∧ complete N (exec N acts) ∧
      (∃ v ∈ (exec N acts).observed, ∀ i, i < N → v ∉ (exec N acts).taken i) ∧
      ((exec N acts).count ≠ (exec N acts).inputCount ∨
        (exec N acts).sum ≠ (exec N acts).inputSum) := by
  rintro ⟨N, acts, _, hc, ⟨v, hv, hno⟩, _⟩
  have hI := inv_exec N acts
  obtain ⟨i, hi, hvi⟩ := published_taken hI v (observed_sub_published hI v hv)
  exact hno i hi hvi

/-! ## One `Worker` -/

theorem Worker.run_done (es : List WorkerEv) (pc : WorkerPc) (out : List ChanEv)
    (h : Worker.run .done es = some (pc, out)) : es = [] ∧ pc = .done ∧ out = [] := by
  cases es with
  | nil =>
    simp only [Worker.run, Option.some.injEq, Prod.mk.injEq] at h
    exact ⟨rfl, h.1.symm, h.2.symm⟩
  | cons e es => cases e <;> simp [Worker.run, Worker] at h

theorem Worker.run_cons {pc0 pc : WorkerPc} {e : WorkerEv} {es : List WorkerEv}
    {out : List ChanEv} (h : Worker.run pc0 (e :: es) = some (pc, out)) :
    ∃ pc1 o1 o2, Worker pc0 e = some (pc1, o1) ∧ Worker.run pc1 es = some (pc, o2) ∧
      out = o1 ++ o2 := by
  simp only [Worker.run] at h
  cases h1 : Worker pc0 e with
  | none => simp [h1] at h
  | some r1 =>
    obtain ⟨pc1, o1⟩ := r1
    cases h2 : Worker.run pc1 es with
    | none => simp [h1, h2] at h
    | some r2 =>
      obtain ⟨pc2, o2⟩ := r2
      simp only [h1, h2, Option.some.injEq, Prod.mk.injEq] at h
      exact ⟨pc1, o1, o2, rfl, by rw [h2, h.1], h.2.symm⟩

theorem Worker.run_spec (evs : List WorkerEv) :
    ∀ (pc0 pc : WorkerPc) (out : List ChanEv), pc0 ≠ .done →
      Worker.run pc0 evs = some (pc, out) →
      pc0.held ++ Worker.inputs evs = ChanEv.vals out ++ pc.held ∧
      (pc ≠ .done → ChanEv.close ∉ out) ∧
      (pc = .done → ∃ o es, out = o ++ [ChanEv.close] ∧ ChanEv.close ∉ o ∧
        evs = es ++ [WorkerEv.recvClosed]) := by
  induction evs with
  | nil =>
    intro pc0 pc out hne h
    simp only [Worker.run, Option.some.injEq, Prod.mk.injEq] at h
    obtain ⟨rfl, rfl⟩ := h
    refine ⟨by simp [Worker.inputs, ChanEv.vals], fun _ => by simp, fun hd => absurd hd hne⟩
  | cons e es ih =>
    intro pc0 pc out hne h
    obtain ⟨pc1, o1, o2, h1, h2, rfl⟩ := Worker.run_cons h
    cases pc0 with
    | done => exact absurd rfl hne
    | recv =>
      cases e with
      | recvVal v =>
        simp only [Worker, Option.some.injEq, Prod.mk.injEq] at h1
        obtain ⟨rfl, rfl⟩ := h1
        obtain ⟨i1, i2, i3⟩ := ih _ pc o2 (by simp) h2
        refine ⟨by simpa [WorkerPc.held, Worker.inputs] using i1, by simpa using i2, ?_⟩
        intro hd
        obtain ⟨o, es', e1, e2, e3⟩ := i3 hd
        exact ⟨o, WorkerEv.recvVal v :: es', by simpa using e1, e2, by simp [e3]⟩
      | recvClosed =>
        simp only [Worker, Option.some.injEq, Prod.mk.injEq] at h1
        obtain ⟨rfl, rfl⟩ := h1
        obtain ⟨rfl, rfl, rfl⟩ := Worker.run_done es pc o2 h2
        refine ⟨by simp [WorkerPc.held, Worker.inputs, ChanEv.vals], fun hd => absurd rfl hd, ?_⟩
        intro _
        exact ⟨[], [], by simp, by simp, by simp⟩
      | sent => simp [Worker] at h1
      | woke => simp [Worker] at h1
    | send v =>
      cases e with
      | sent =>
        simp only [Worker, Option.some.injEq, Prod.mk.injEq] at h1
        obtain ⟨rfl, rfl⟩ := h1
        obtain ⟨i1, i2, i3⟩ := ih _ pc o2 (by simp) h2
        refine ⟨by simpa [WorkerPc.held, Worker.inputs, ChanEv.vals] using i1,
          fun hd => by simpa using i2 hd, ?_⟩
        intro hd
        obtain ⟨o, es', e1, e2, e3⟩ := i3 hd
        exact ⟨ChanEv.val v :: o, WorkerEv.sent :: es', by simp [e1], by simpa using e2,
          by simp [e3]⟩
      | recvVal w => simp [Worker] at h1
      | recvClosed => simp [Worker] at h1
      | woke => simp [Worker] at h1
    | sleep =>
      cases e with
      | woke =>
        simp only [Worker, Option.some.injEq, Prod.mk.injEq] at h1
        obtain ⟨rfl, rfl⟩ := h1
        obtain ⟨i1, i2, i3⟩ := ih _ pc o2 (by simp) h2
        refine ⟨by simpa [WorkerPc.held, Worker.inputs, ChanEv.vals] using i1,
          fun hd => by simpa using i2 hd, ?_⟩
        intro hd
        obtain ⟨o, es', e1, e2, e3⟩ := i3 hd
        exact ⟨o, WorkerEv.woke :: es', by simpa using e1, e2, by simp [e3]⟩
      | recvVal w => simp [Worker] at h1
      | recvClosed => simp [Worker] at h1
      | sent => simp [Worker] at h1

theorem ChanEv.eq_map_vals (o : List ChanEv) (h : ChanEv.close ∉ o) :
    o = (ChanEv.vals o).map ChanEv.val := by
  induction o with
  | nil => rfl
  | cons e o ih =>
    cases e with
    | val v =>
      have := ih (fun hm => h (List.mem_cons_of_mem _ hm))
      simp only [ChanEv.vals, List.map_cons]
      rw [← this]
    | close => exact absurd (List.mem_cons_self _ _) h

theorem ChanEv.vals_append (o₁ o₂ : List ChanEv) :
    ChanEv.vals (o₁ ++ o₂) = ChanEv.vals o₁ ++ ChanEv.vals o₂ := by
  induction o₁ with
  | nil => rfl
  | cons e o ih => cases e <;> simp [ChanEv.vals, ih]

theorem Worker.run_feed (xs : List Int) :
    Worker.run .recv (Worker.feed xs) = some (.done, xs.map ChanEv.val ++ [ChanEv.close]) := by
  induction xs with
  | nil => rfl
  | cons v xs ih => simp [Worker.feed, Worker.run, Worker, ih]

/-- C8: a `Worker` that is delivered `xs` and then end-of-stream returns
having put on `out` exactly the values `xs`, in order, followed by one close;
and in every run of a `Worker` that was delivered `xs`, the values put on
`out` followed by the value it still holds are `xs`, `out` is closed at most
once, it is closed exactly when the `Worker` has returned, and then the last
event was the end-of-stream on `in` and the close comes after all of `xs`. -/
theorem C8_worker_relays (xs : List Int) (evs : List WorkerEv) (pc : WorkerPc)
    (out : List ChanEv) (hrun : Worker.run .recv evs = some (pc, out))
    (hin : Worker.inputs evs = xs) :
    Worker.run .recv (Worker.feed xs) = some (.done, xs.map ChanEv.val ++ [ChanEv.close]) ∧
    ChanEv.vals out ++ pc.held = xs ∧
    out.count ChanEv.close ≤ 1 ∧
    (ChanEv.close ∈ out ↔ pc = .done) ∧
    (pc = .done → out = xs.map ChanEv.val ++ [ChanEv.close] ∧
      evs.getLast? = some WorkerEv.recvClosed) := by
  obtain ⟨h1, h2, h3⟩ := Worker.run_spec evs .recv pc out (by simp) hrun
  have hv : ChanEv.vals out ++ pc.held = xs := by
    rw [← h1, ← hin]; simp [WorkerPc.held]
  have hdone : pc = .done → out = xs.map ChanEv.val ++ [ChanEv.close] ∧
      evs.getLast? = some WorkerEv.recvClosed := by
    intro hd
    obtain ⟨o, es, e1, e2, e3⟩ := h3 hd
    have hx : ChanEv.vals o = xs := by
      rw [← hv, e1, hd, ChanEv.vals_append]
      simp [ChanEv.vals, WorkerPc.held]
    refine ⟨?_, by simp [e3]⟩
    rw [e1, ← hx, ← ChanEv.eq_map_vals o e2]
  refine ⟨Worker.run_feed xs, hv, ?_, ?_, hdone⟩
  · by_cases hd : pc = .done
    · rw [(hdone hd).1]
      have hz : (xs.map ChanEv.val).count ChanEv.close = 0 :=
        List.count_eq_zero_of_not_mem (by simp)
      simp [List.count_append, hz]
    · have := h2 hd
      rw [List.count_eq_zero_of_not_mem this]
      exact Nat.zero_le _
  · constructor
    · intro hm
      by_contra hd
      exact h2 hd hm
    · intro hd
      rw [(hdone hd).1]
      simp

/-- C8 at the input `[7, 7, -3]`. -/
theorem C8_worker_relays_witness :
    Worker.run .recv (Worker.feed [7, 7, -3])
      = some (.done, [ChanEv.val 7, ChanEv.val 7, ChanEv.val (-3), ChanEv.close]) ∧
    Worker.inputs (Worker.feed [7, 7, -3]) = [7, 7, -3] ∧
    (Worker.run .recv (Worker.feed [7, 7, -3])
      = some (.done, ([7, 7, -3] : List Int).map ChanEv.val ++ [ChanEv.close]) ∧
    ChanEv.vals [ChanEv.val 7, ChanEv.val 7, ChanEv.val (-3), ChanEv.close]
      ++ WorkerPc.done.held = [7, 7, -3] ∧
    [ChanEv.val 7, ChanEv.val 7, ChanEv.val (-3), ChanEv.close].count ChanEv.close ≤ 1 ∧
    (ChanEv.close ∈ [ChanEv.val 7, ChanEv.val 7, ChanEv.val (-3), ChanEv.close]
      ↔ WorkerPc.done = .done) ∧
    (WorkerPc.done = .done →
      [ChanEv.val 7, ChanEv.val 7, ChanEv.val (-3), ChanEv.close]
        = ([7, 7, -3] : List Int).map ChanEv.val ++ [ChanEv.close] ∧
      (Worker.feed [7, 7, -3]).getLast? = some WorkerEv.recvClosed)) :=
  ⟨by decide, by decide,
    C8_worker_relays [7, 7, -3] (Worker.feed [7, 7, -3]) .done
      [ChanEv.val 7, ChanEv.val 7, ChanEv.val (-3), ChanEv.close] (by decide) (by decide)⟩

end Pipeline
